import Mathlib

/-!
# Verification of `SortingCards.py`

Shallow embedding of the parallel merge sort program `src/SortingCards.py`.

* `merge` embeds the two-cursor `merge(left, right, key)` loop as structural
  recursion on the two lists (the cursors `i`, `j` of the Python loop are the
  positions reached by peeling the list heads).
* `pySorted` models Python's builtin `sorted(array, key=key)`: a stable
  comparison sort by `key`, embedded as insertion sort (`orderedInsert`).
* `parallel_merge_sort` embeds `parallel_merge_sort(array, key, max_depth)`.
  The `ProcessPoolExecutor` dispatch only schedules the two recursive calls;
  each future's `result()` is the value of the recursive call, so the returned
  value is the pure recursion embedded here.  `max_depth` is an `Int` because
  Python callers may pass a negative depth.
* `get_optimal_max_depth` embeds the depth policy as a function of the cpu
  count that `multiprocessing.cpu_count()` reports; `int(math.log2(n))` for
  `n ≥ 2` is the floor of the base-2 logarithm, embedded by `floorLog2`.
-/

namespace SortingCards

universe u v

variable {α : Type u} {κ : Type v} [LinearOrder κ]

/-- The comparison used throughout: Python's `key(a) <= key(b)`. -/
abbrev keyLe (key : α → κ) (a b : α) : Prop := key a ≤ key b

/-- `merge(left, right, key)` from `SortingCards.py`: the loop moves the head
whose key is smaller (left wins ties via `<=`) into the output; once a side is
exhausted the remainder of the other side is appended untouched. -/
def merge (key : α → κ) : List α → List α → List α
  | [], right => right
  | left, [] => left
  | a :: as, b :: bs =>
    if key a ≤ key b then a :: merge key as (b :: bs)
    else b :: merge key (a :: as) bs

/-- Insert `a` into a list, before the first element whose key is `≥ key a`.
Building block of the stable-sort model of Python's `sorted`. -/
def orderedInsert (key : α → κ) (a : α) : List α → List α
  | [] => [a]
  | b :: bs => if key a ≤ key b then a :: b :: bs else b :: orderedInsert key a bs

/-- Model of Python's builtin `sorted(array, key=key)`: a stable comparison
sort ascending by `key`, embedded as insertion sort. -/
def pySorted (key : α → κ) : List α → List α
  | [] => []
  | a :: l => orderedInsert key a (pySorted key l)

/-- `left_part = array[:mid]` with `mid = len(array) // 2`. -/
def left_part (array : List α) : List α := array.take (array.length / 2)

/-- `right_part = array[mid:]` with `mid = len(array) // 2`. -/
def right_part (array : List α) : List α := array.drop (array.length / 2)

/-- `parallel_merge_sort(array, key, max_depth)` from `SortingCards.py`.
If `len(array) <= 1 or max_depth <= 0` it returns `sorted(array, key=key)`;
otherwise it sorts `array[:mid]` and `array[mid:]` recursively with depth
`max_depth - 1` (in worker processes, whose results the caller awaits) and
merges the two sorted halves. -/
def parallel_merge_sort (key : α → κ) (array : List α) (max_depth : Int) :
    List α :=
  if array.length ≤ 1 ∨ max_depth ≤ 0 then pySorted key array
  else
    merge key (parallel_merge_sort key (left_part array) (max_depth - 1))
      (parallel_merge_sort key (right_part array) (max_depth - 1))
termination_by array.length
decreasing_by
  · simp only [left_part, List.length_take, not_or, not_le] at *
    omega
  · simp only [right_part, List.length_drop, not_or, not_le] at *
    omega

/-- Floor of the base-2 logarithm, with inner fuel so that it is structural
recursion (`floorLog2Aux fuel n` is correct whenever `n ≤ fuel`). -/
def floorLog2Aux : ℕ → ℕ → ℕ
  | 0, _ => 0
  | fuel + 1, n => if n < 2 then 0 else floorLog2Aux fuel (n / 2) + 1

/-- `int(math.log2(n))`: the floor of the base-2 logarithm of `n`. -/
def floorLog2 (n : ℕ) : ℕ := floorLog2Aux n n

/-- `get_optimal_max_depth()` from `SortingCards.py`, as a function of the
cpu count reported by `multiprocessing.cpu_count()`: `0` when fewer than two
cores are available, otherwise `int(math.log2(cpu_count))`. -/
def get_optimal_max_depth (cpu_count : ℕ) : ℕ :=
  if cpu_count < 2 then 0 else floorLog2 cpu_count

/-! ## Basic equations for `merge` -/

theorem merge_nil_left (key : α → κ) (r : List α) : merge key [] r = r := by
  simp [merge]

theorem merge_nil_right (key : α → κ) (l : List α) : merge key l [] = l := by
  cases l <;> simp [merge]

theorem merge_cons_cons (key : α → κ) (a b : α) (as bs : List α) :
    merge key (a :: as) (b :: bs) =
      if key a ≤ key b then a :: merge key as (b :: bs)
      else b :: merge key (a :: as) bs := by
  simp [merge]

/-! ## `merge` is a permutation of its inputs, preserves sortedness, and is
stable (the elements of any fixed key come out as: left's, then right's). -/

theorem merge_perm (key : α → κ) : ∀ l r : List α, (merge key l r).Perm (l ++ r) := by
  intro l
  induction l with
  | nil => intro r; simp [merge_nil_left]
  | cons a as ihl =>
    intro r
    induction r with
    | nil => simp [merge_nil_right]
    | cons b bs ihr =>
      rw [merge_cons_cons]
      by_cases h : key a ≤ key b
      · rw [if_pos h]
        exact (ihl (b :: bs)).cons a
      · rw [if_neg h]
        exact (ihr.cons b).trans List.perm_middle.symm

theorem merge_pairwise (key : α → κ) :
    ∀ l r : List α, l.Pairwise (keyLe key) → r.Pairwise (keyLe key) →
      (merge key l r).Pairwise (keyLe key) := by
  intro l
  induction l with
  | nil => intro r _ hr; simpa [merge_nil_left] using hr
  | cons a as ihl =>
    intro r
    induction r with
    | nil => intro hl _; simpa [merge_nil_right] using hl
    | cons b bs ihr =>
      intro hl hr
      rw [merge_cons_cons]
      by_cases h : key a ≤ key b
      · rw [if_pos h]
        rw [List.pairwise_cons] at hl ⊢
        refine ⟨?_, ihl (b :: bs) hl.2 hr⟩
        intro x hx
        have hx' := (merge_perm key as (b :: bs)).mem_iff.mp hx
        rcases List.mem_append.mp hx' with h1 | h2
        · exact hl.1 x h1
        · rcases List.mem_cons.mp h2 with rfl | h3
          · exact h
          · exact le_trans h ((List.pairwise_cons.mp hr).1 x h3)
      · rw [if_neg h]
        have hba : key b ≤ key a := le_of_not_le h
        rw [List.pairwise_cons] at hr ⊢
        refine ⟨?_, ihr hl hr.2⟩
        intro x hx
        have hx' := (merge_perm key (a :: as) bs).mem_iff.mp hx
        rcases List.mem_append.mp hx' with h1 | h2
        · rcases List.mem_cons.mp h1 with rfl | h3
          · exact hba
          · exact le_trans hba ((List.pairwise_cons.mp hl).1 x h3)
        · exact hr.1 x h2

theorem merge_filter (key : α → κ) (c : κ) :
    ∀ l r : List α, l.Pairwise (keyLe key) →
      (merge key l r).filter (fun x => decide (key x = c)) =
        l.filter (fun x => decide (key x = c)) ++
          r.filter (fun x => decide (key x = c)) := by
  intro l
  induction l with
  | nil => intro r _; simp [merge_nil_left]
  | cons a as ihl =>
    intro r
    induction r with
    | nil => intro _; simp [merge_nil_right]
    | cons b bs ihr =>
      intro hl
      have htl : as.Pairwise (keyLe key) := (List.pairwise_cons.mp hl).2
      rw [merge_cons_cons]
      by_cases h : key a ≤ key b
      · rw [if_pos h]
        by_cases hda : key a = c <;>
          simp [List.filter_cons, hda, ihl (b :: bs) htl]
      · rw [if_neg h]
        have hba : key b < key a := lt_of_not_le h
        by_cases hdb : key b = c
        · have hca : c < key a := by rw [← hdb]; exact hba
          have hnil : (a :: as).filter (fun x => decide (key x = c)) = [] := by
            rw [List.filter_eq_nil_iff]
            intro x hx
            simp only [decide_eq_true_eq]
            rcases List.mem_cons.mp hx with rfl | h3
            · exact ne_of_gt hca
            · exact ne_of_gt (lt_of_lt_of_le hca ((List.pairwise_cons.mp hl).1 x h3))
          simp [List.filter_cons, hdb, ihr hl, hnil]
        · simp [List.filter_cons, hdb, ihr hl]

/-! ## The sequential baseline `pySorted` sorts, permutes, and is stable. -/

theorem orderedInsert_perm (key : α → κ) (a : α) :
    ∀ l : List α, (orderedInsert key a l).Perm (a :: l) := by
  intro l
  induction l with
  | nil => simp [orderedInsert]
  | cons b bs ih =>
    simp only [orderedInsert]
    by_cases h : key a ≤ key b
    · rw [if_pos h]
    · rw [if_neg h]
      exact (ih.cons b).trans (List.Perm.swap a b bs)

theorem orderedInsert_pairwise (key : α → κ) (a : α) :
    ∀ l : List α, l.Pairwise (keyLe key) →
      (orderedInsert key a l).Pairwise (keyLe key) := by
  intro l
  induction l with
  | nil => intro _; simp [orderedInsert]
  | cons b bs ih =>
    intro hl
    simp only [orderedInsert]
    obtain ⟨hb, hbs⟩ := List.pairwise_cons.mp hl
    by_cases h : key a ≤ key b
    · rw [if_pos h, List.pairwise_cons]
      refine ⟨?_, hl⟩
      intro x hx
      rcases List.mem_cons.mp hx with rfl | h3
      · exact h
      · exact le_trans h (hb x h3)
    · rw [if_neg h, List.pairwise_cons]
      have hba : key b ≤ key a := le_of_not_le h
      refine ⟨?_, ih hbs⟩
      intro x hx
      have hx' := (orderedInsert_perm key a bs).mem_iff.mp hx
      rcases List.mem_cons.mp hx' with rfl | h3
      · exact hba
      · exact hb x h3

theorem filter_orderedInsert (key : α → κ) (c : κ) (a : α) :
    ∀ l : List α,
      (orderedInsert key a l).filter (fun x => decide (key x = c)) =
        if key a = c then a :: l.filter (fun x => decide (key x = c))
        else l.filter (fun x => decide (key x = c)) := by
  intro l
  induction l with
  | nil => by_cases ha : key a = c <;> simp [orderedInsert, List.filter_cons, ha]
  | cons b bs ih =>
    simp only [orderedInsert]
    by_cases h : key a ≤ key b
    · rw [if_pos h]
      by_cases ha : key a = c <;> simp [List.filter_cons, ha]
    · rw [if_neg h]
      by_cases ha : key a = c
      · have hb : ¬(key b = c) := by
          intro hbc
          exact h (le_of_eq (ha.trans hbc.symm))
        simp [List.filter_cons, ha, hb, ih]
      · simp [List.filter_cons, ha, ih]

theorem pySorted_perm (key : α → κ) : ∀ l : List α, (pySorted key l).Perm l := by
  intro l
  induction l with
  | nil => simp [pySorted]
  | cons a l ih =>
    exact (orderedInsert_perm key a (pySorted key l)).trans (ih.cons a)

theorem pySorted_pairwise (key : α → κ) :
    ∀ l : List α, (pySorted key l).Pairwise (keyLe key) := by
  intro l
  induction l with
  | nil => simp [pySorted]
  | cons a l ih => exact orderedInsert_pairwise key a _ ih

theorem filter_pySorted (key : α → κ) (c : κ) :
    ∀ l : List α,
      (pySorted key l).filter (fun x => decide (key x = c)) =
        l.filter (fun x => decide (key x = c)) := by
  intro l
  induction l with
  | nil => rfl
  | cons a l ih =>
    show (orderedInsert key a (pySorted key l)).filter _ = _
    rw [filter_orderedInsert, ih]
    by_cases ha : key a = c <;> simp [List.filter_cons, ha]

/-! ## A sorted list is determined by its per-key filters.  This pins the
output of any stable sort uniquely, which gives depth invariance. -/

theorem pairwise_filter_ext (key : α → κ) :
    ∀ l₁ l₂ : List α, l₁.Pairwise (keyLe key) → l₂.Pairwise (keyLe key) →
      (∀ c : κ, l₁.filter (fun x => decide (key x = c)) =
        l₂.filter (fun x => decide (key x = c))) →
      l₁ = l₂ := by
  intro l₁
  induction l₁ with
  | nil =>
    intro l₂ _ _ hf
    cases l₂ with
    | nil => rfl
    | cons b bs =>
      have h1 := hf (key b)
      simp [List.filter_cons] at h1
  | cons a as ih =>
    intro l₂ h₁ h₂ hf
    cases l₂ with
    | nil =>
      have h1 := hf (key a)
      simp [List.filter_cons] at h1
    | cons b bs =>
      obtain ⟨ha1, ha2⟩ := List.pairwise_cons.mp h₁
      obtain ⟨hb1, hb2⟩ := List.pairwise_cons.mp h₂
      have hamem : a ∈ b :: bs := by
        have h1 := hf (key a)
        have h2 : a ∈ (b :: bs).filter (fun x => decide (key x = key a)) := by
          rw [← h1]
          simp [List.filter_cons]
        exact (List.mem_filter.mp h2).1
      have hbmem : b ∈ a :: as := by
        have h1 := hf (key b)
        have h2 : b ∈ (a :: as).filter (fun x => decide (key x = key b)) := by
          rw [h1]
          simp [List.filter_cons]
        exact (List.mem_filter.mp h2).1
      have hab : key a = key b := by
        rcases List.mem_cons.mp hamem with rfl | hmem
        · rfl
        · rcases List.mem_cons.mp hbmem with heq | hmem'
          · rw [heq]
          · exact le_antisymm (ha1 b hmem') (hb1 a hmem)
      have heads : a :: as.filter (fun x => decide (key x = key a)) =
          b :: bs.filter (fun x => decide (key x = key a)) := by
        have h1 := hf (key a)
        rw [List.filter_cons, List.filter_cons] at h1
        rw [if_pos (by simp), if_pos (by simp [hab])] at h1
        exact h1
      obtain ⟨hab2, htail⟩ := List.cons_eq_cons.mp heads
      subst hab2
      have htls : as = bs := by
        apply ih bs ha2 hb2
        intro c
        rcases eq_or_ne c (key a) with rfl | hc
        · exact htail
        · have h1 := hf c
          simp only [List.filter_cons, decide_eq_true_eq] at h1
          rw [if_neg (Ne.symm hc), if_neg (Ne.symm hc)] at h1
          exact h1
      rw [htls]

/-! ## The engine: sortedness, permutation, stability, depth invariance. -/

theorem parallel_merge_sort_eq (key : α → κ) (array : List α) (d : Int) :
    parallel_merge_sort key array d =
      if array.length ≤ 1 ∨ d ≤ 0 then pySorted key array
      else
        merge key (parallel_merge_sort key (left_part array) (d - 1))
          (parallel_merge_sort key (right_part array) (d - 1)) := by
  rw [parallel_merge_sort]

theorem pms_spec (key : α → κ) :
    ∀ (n : ℕ) (l : List α), l.length ≤ n → ∀ d : Int,
      (parallel_merge_sort key l d).Pairwise (keyLe key) ∧
        (parallel_merge_sort key l d).Perm l ∧
        ∀ c : κ, (parallel_merge_sort key l d).filter (fun x => decide (key x = c)) =
          l.filter (fun x => decide (key x = c)) := by
  intro n
  induction n with
  | zero =>
    intro l hl d
    have hnil : l = [] := List.length_eq_zero.mp (Nat.le_zero.mp hl)
    subst hnil
    rw [parallel_merge_sort_eq]
    simp [pySorted]
  | succ n ih =>
    intro l hl d
    rw [parallel_merge_sort_eq]
    by_cases hb : l.length ≤ 1 ∨ d ≤ 0
    · rw [if_pos hb]
      exact ⟨pySorted_pairwise key l, pySorted_perm key l,
        fun c => filter_pySorted key c l⟩
    · rw [if_neg hb]
      have hlen : 2 ≤ l.length := by
        rcases not_or.mp hb with ⟨h1, _⟩
        omega
      have hLlt : (left_part l).length < l.length := by
        simp only [left_part, List.length_take]
        omega
      have hRlt : (right_part l).length < l.length := by
        simp only [right_part, List.length_drop]
        omega
      have he : left_part l ++ right_part l = l := by
        rw [left_part, right_part]
        exact List.take_append_drop _ l
      obtain ⟨sL, pL, fL⟩ := ih (left_part l) (by omega) (d - 1)
      obtain ⟨sR, pR, fR⟩ := ih (right_part l) (by omega) (d - 1)
      refine ⟨merge_pairwise key _ _ sL sR, ?_, ?_⟩
      · have hp : (left_part l ++ right_part l).Perm l := by
          rw [he]
        exact (merge_perm key _ _).trans ((pL.append pR).trans hp)
      · intro c
        rw [merge_filter key c _ _ sL, fL c, fR c, ← List.filter_append, he]

theorem pms_eq_pySorted (key : α → κ) (l : List α) (d : Int) :
    parallel_merge_sort key l d = pySorted key l := by
  obtain ⟨hs, _, hf⟩ := pms_spec key l.length l le_rfl d
  exact pairwise_filter_ext key _ _ hs (pySorted_pairwise key l)
    (fun c => (hf c).trans (filter_pySorted key c l).symm)

/-! ## The depth policy computes the floor of the base-2 logarithm. -/

theorem floorLog2Aux_spec :
    ∀ fuel n : ℕ, n ≤ fuel → 1 ≤ n →
      2 ^ floorLog2Aux fuel n ≤ n ∧ n < 2 ^ (floorLog2Aux fuel n + 1) := by
  intro fuel
  induction fuel with
  | zero => intro n h1 h2; omega
  | succ fuel ih =>
    intro n h1 h2
    rw [floorLog2Aux]
    by_cases hn : n < 2
    · rw [if_pos hn]
      exact ⟨by simpa using h2, by simpa using hn⟩
    · rw [if_neg hn]
      obtain ⟨ihl, ihr⟩ := ih (n / 2) (by omega) (by omega)
      constructor
      · rw [pow_succ]
        omega
      · rw [pow_succ]
        omega

theorem floorLog2_spec (n : ℕ) (h : 1 ≤ n) :
    2 ^ floorLog2 n ≤ n ∧ n < 2 ^ (floorLog2 n + 1) :=
  floorLog2Aux_spec n n le_rfl h

/-! ## The claims. -/

/-- Claim C1: for every input list, every key function, and every max depth,
`parallel_merge_sort(array, key, max_depth)` returns a permutation of the
input (same multiset, none dropped or duplicated) in which every adjacent
pair of output elements satisfies `key(output[i]) <= key(output[i+1])`. -/
theorem claim_C1 (key : α → κ) (l : List α) (d : Int) :
    (parallel_merge_sort key l d).Perm l ∧
      List.Chain' (fun a b => key a ≤ key b) (parallel_merge_sort key l d) := by
  obtain ⟨hs, hp, _⟩ := pms_spec key l.length l le_rfl d
  exact ⟨hp, List.Pairwise.chain' hs⟩

/-- Claim C2: `parallel_merge_sort` is stable for every max depth: whenever
two elements with equal keys occur in the input in a given order (as the
two-element sublist `[a, b]`), they occur in the output in the same order.
The merge takes left's head on ties via `<=` and the base-case sort is
stable. -/
theorem claim_C2 (key : α → κ) (l : List α) (d : Int) (a b : α)
    (hk : key a = key b) (hab : [a, b].Sublist l) :
    [a, b].Sublist (parallel_merge_sort key l d) := by
  obtain ⟨_, _, hf⟩ := pms_spec key l.length l le_rfl d
  have h1 : [a, b].filter (fun x => decide (key x = key b)) = [a, b] := by
    simp [List.filter_cons, hk]
  have h2 := hab.filter (p := fun x => decide (key x = key b))
  rw [h1, ← hf (key b)] at h2
  exact h2.trans (List.filter_sublist _)

theorem claim_C2_witness :
    [((1 : ℕ), (10 : ℕ)), (1, 20)].Sublist
      (parallel_merge_sort Prod.fst [(1, 10), (2, 5), (1, 20)] 3) :=
  claim_C2 Prod.fst [(1, 10), (2, 5), (1, 20)] 3 (1, 10) (1, 20) rfl (by decide)

/-- Claim C3: depth invariance: for every input list and key function,
`parallel_merge_sort` returns the same output sequence at any two depths,
and at every depth it equals the sequential baseline `sorted(array, key)`
(modelled by `pySorted`). -/
theorem claim_C3 (key : α → κ) (l : List α) (d₁ d₂ : Int) :
    parallel_merge_sort key l d₁ = parallel_merge_sort key l d₂ ∧
      parallel_merge_sort key l d₁ = pySorted key l :=
  ⟨(pms_eq_pySorted key l d₁).trans (pms_eq_pySorted key l d₂).symm,
    pms_eq_pySorted key l d₁⟩

/-- Claim C4: `merge(left, right, key)` on two individually sorted inputs
returns one list with exactly the elements of both, sorted ascending by key;
`merge([1,3,5],[2,2,4])` with the identity key is `[1,2,2,3,4,5]`,
`merge([],[1,2])` is `[1,2]`, `merge([1],[1])` is `[1,1]` with the left
element first (shown on tagged pairs sorted by first component), and an
empty input on either side returns the other side unchanged. -/
theorem claim_C4 (key : α → κ) (l r : List α)
    (hl : l.Pairwise (keyLe key)) (hr : r.Pairwise (keyLe key)) :
    (merge key l r).Perm (l ++ r) ∧
      List.Chain' (fun a b => key a ≤ key b) (merge key l r) ∧
      merge (id : ℕ → ℕ) [1, 3, 5] [2, 2, 4] = [1, 2, 2, 3, 4, 5] ∧
      merge (id : ℕ → ℕ) [] [1, 2] = [1, 2] ∧
      merge (id : ℕ → ℕ) [1] [1] = [1, 1] ∧
      merge (Prod.fst : ℕ × ℕ → ℕ) [(1, 0)] [(1, 1)] = [(1, 0), (1, 1)] ∧
      ∀ (key' : α → κ) (l' : List α),
        merge key' [] l' = l' ∧ merge key' l' [] = l' := by
  refine ⟨merge_perm key l r,
    List.Pairwise.chain' (merge_pairwise key l r hl hr),
    by norm_num [merge_cons_cons, merge_nil_left, merge_nil_right],
    by norm_num [merge_nil_left],
    by norm_num [merge_cons_cons, merge_nil_left, merge_nil_right],
    by norm_num [merge_cons_cons, merge_nil_left, merge_nil_right], ?_⟩
  intro key' l'
  exact ⟨merge_nil_left key' l', merge_nil_right key' l'⟩

theorem claim_C4_witness :
    (merge (id : ℕ → ℕ) [1, 3, 5] [2, 2, 4]).Perm ([1, 3, 5] ++ [2, 2, 4]) :=
  (claim_C4 (id : ℕ → ℕ) [1, 3, 5] [2, 2, 4] (by decide) (by decide)).1

/-- Claim C5: whenever the input has at most one element or `max_depth <= 0`
(negative depths behave exactly like zero and are not an error),
`parallel_merge_sort` returns exactly the sequential baseline result;
`parallel_merge_sort([x])` is `[x]` for every single element and every
depth, and `parallel_merge_sort([])` is `[]`. -/
theorem claim_C5 (key : α → κ) (l : List α) (d : Int)
    (h : l.length ≤ 1 ∨ d ≤ 0) :
    parallel_merge_sort key l d = pySorted key l ∧
      (∀ (x : α) (d' : Int), parallel_merge_sort key [x] d' = [x]) ∧
      (∀ d' : Int, parallel_merge_sort key ([] : List α) d' = []) ∧
      ∀ (l' : List α) (d' : Int), d' ≤ 0 →
        parallel_merge_sort key l' d' = parallel_merge_sort key l' 0 := by
  refine ⟨?_, ?_, ?_, ?_⟩
  · rw [parallel_merge_sort_eq, if_pos h]
  · intro x d'
    rw [parallel_merge_sort_eq, if_pos (Or.inl (by simp))]
    rfl
  · intro d'
    rw [parallel_merge_sort_eq, if_pos (Or.inl (by simp))]
    rfl
  · intro l' d' hd'
    rw [parallel_merge_sort_eq, if_pos (Or.inr hd'),
      parallel_merge_sort_eq, if_pos (Or.inr le_rfl)]

theorem claim_C5_witness :
    parallel_merge_sort (id : ℕ → ℕ) [7] 5 = pySorted id [7] ∧
      (∀ (x : ℕ) (d' : Int), parallel_merge_sort (id : ℕ → ℕ) [x] d' = [x]) ∧
      (∀ d' : Int, parallel_merge_sort (id : ℕ → ℕ) ([] : List ℕ) d' = []) ∧
      ∀ (l' : List ℕ) (d' : Int), d' ≤ 0 →
        parallel_merge_sort (id : ℕ → ℕ) l' d' = parallel_merge_sort id l' 0 :=
  claim_C5 id [7] 5 (Or.inl (by decide))

/-- Claim C6: the depth policy returns a non-negative integer (its type is
`ℕ`); with fewer than two cores it returns `0`, otherwise the floor of the
base-2 logarithm of the core count (characterised by
`2 ^ depth ≤ P < 2 ^ (depth+1)`); it returns `0` at one core and `3` at
eight cores. -/
theorem claim_C6 (P : ℕ) (h : 2 ≤ P) :
    (∀ Q : ℕ, Q < 2 → get_optimal_max_depth Q = 0) ∧
      2 ^ get_optimal_max_depth P ≤ P ∧
      P < 2 ^ (get_optimal_max_depth P + 1) ∧
      get_optimal_max_depth 1 = 0 ∧
      get_optimal_max_depth 8 = 3 := by
  have hP : get_optimal_max_depth P = floorLog2 P := by
    rw [get_optimal_max_depth, if_neg (by omega)]
  obtain ⟨h1, h2⟩ := floorLog2_spec P (by omega)
  refine ⟨?_, ?_, ?_, by decide, by decide⟩
  · intro Q hQ
    rw [get_optimal_max_depth, if_pos hQ]
  · rw [hP]
    exact h1
  · rw [hP]
    exact h2

theorem claim_C6_witness :
    (∀ Q : ℕ, Q < 2 → get_optimal_max_depth Q = 0) ∧
      2 ^ get_optimal_max_depth 8 ≤ 8 ∧
      (8 : ℕ) < 2 ^ (get_optimal_max_depth 8 + 1) ∧
      get_optimal_max_depth 1 = 0 ∧
      get_optimal_max_depth 8 = 3 :=
  claim_C6 8 (by decide)

/-- Claim C8: `parallel_merge_sort` terminates on every input (it is a total
function of this development, accepted with the measure `array.length`): in
the recursive case each recursive call receives `max_depth - 1` and a
strictly shorter half, and the recursion stops, returning the sequential
baseline, exactly when the depth budget is `<= 0` or at most one element
remains. -/
theorem claim_C8 (key : α → κ) (l : List α) (d : Int)
    (h : ¬(l.length ≤ 1 ∨ d ≤ 0)) :
    parallel_merge_sort key l d =
      merge key (parallel_merge_sort key (left_part l) (d - 1))
        (parallel_merge_sort key (right_part l) (d - 1)) ∧
      (left_part l).length < l.length ∧
      (right_part l).length < l.length ∧
      ∀ (l' : List α) (d' : Int), l'.length ≤ 1 ∨ d' ≤ 0 →
        parallel_merge_sort key l' d' = pySorted key l' := by
  obtain ⟨h1, h2⟩ := not_or.mp h
  refine ⟨by rw [parallel_merge_sort_eq, if_neg h], ?_, ?_, ?_⟩
  · simp only [left_part, List.length_take]
    omega
  · simp only [right_part, List.length_drop]
    omega
  · intro l' d' h'
    rw [parallel_merge_sort_eq, if_pos h']

theorem claim_C8_witness :
    parallel_merge_sort (id : ℕ → ℕ) [3, 1, 2] 1 =
      merge id (parallel_merge_sort id (left_part [3, 1, 2]) 0)
        (parallel_merge_sort id (right_part [3, 1, 2]) 0) ∧
      (left_part [3, 1, 2]).length < ([3, 1, 2] : List ℕ).length ∧
      (right_part [3, 1, 2]).length < ([3, 1, 2] : List ℕ).length ∧
      ∀ (l' : List ℕ) (d' : Int), l'.length ≤ 1 ∨ d' ≤ 0 →
        parallel_merge_sort (id : ℕ → ℕ) l' d' = pySorted id l' :=
  claim_C8 id [3, 1, 2] 1 (by decide)

/-- Claim C9: in this pure embedding no function can mutate its arguments,
which matches the source: `merge` only appends to a fresh `merged` list and
`parallel_merge_sort` slices.  The checkable content: the recursive halves
are the contiguous slices `array[:mid]` and `array[mid:]` whose
concatenation reconstructs the input unchanged, and the outputs of both
`parallel_merge_sort` and `merge` are newly built sequences holding exactly
the input elements. -/
theorem claim_C9 (key : α → κ) (l : List α) (d : Int) :
    left_part l ++ right_part l = l ∧
      left_part l = l.take (l.length / 2) ∧
      right_part l = l.drop (l.length / 2) ∧
      (parallel_merge_sort key l d).Perm l ∧
      ∀ l₁ l₂ : List α, (merge key l₁ l₂).Perm (l₁ ++ l₂) := by
  refine ⟨?_, rfl, rfl, (pms_spec key l.length l le_rfl d).2.1, merge_perm key⟩
  rw [left_part, right_part]
  exact List.take_append_drop _ l

/-! ## The card model and the fallible key extractor.

`Card.key` in the source indexes the module dicts `suits_order` and
`ranks_order`; an unmapped suit, or an unmapped rank on a non-joker card,
raises `KeyError`.  A raised extractor is embedded as an `Option`-valued key
(`none` = raise), and `mergeE` / `pySortedE` / `pmsE` re-embed the engine in
the `Option` monad so that a raise anywhere fails the whole call, exactly as
exceptions propagate through `future.result()` into the awaiting parent. -/

/-- A Python scalar that can appear as a card rank: the deck builder stores
string ranks (`"2"`..`"A"`) for ordinary cards and integer ranks (1, 2) for
the jokers. -/
inductive PyVal : Type
  | int (n : Int)
  | str (s : String)
deriving DecidableEq

/-- Python compares ints with ints and strings with strings; the embedding
totalises the order on `PyVal` lexicographically through `Int ⊕ String`
(every int before every str; that cross-kind branch, which Python would
reject with `TypeError`, is never exercised by homogeneous rank data). -/
def PyVal.toSum : PyVal → Lex (Int ⊕ String)
  | .int n => toLex (Sum.inl n)
  | .str s => toLex (Sum.inr s)

theorem PyVal.toSum_injective : Function.Injective PyVal.toSum := by
  intro a b h
  cases a <;> cases b <;> simp only [PyVal.toSum, toLex_inj] at h <;> simp_all

instance : LinearOrder PyVal := LinearOrder.lift' PyVal.toSum PyVal.toSum_injective

theorem PyVal.int_le_int_iff (n m : Int) : PyVal.int n ≤ PyVal.int m ↔ n ≤ m := by
  show PyVal.toSum (PyVal.int n) ≤ PyVal.toSum (PyVal.int m) ↔ n ≤ m
  simp [PyVal.toSum, Sum.Lex.inl_le_inl_iff]

/-- The module-level dict `suits_order`. -/
def suits_order : List (String × Int) :=
  [("corazones", 0), ("tréboles", 1), ("picas", 2), ("diamantes", 3), ("comodin", 4)]

/-- The module-level dict `ranks_order`. -/
def ranks_order : List (String × Int) :=
  [("2", 2), ("3", 3), ("4", 4), ("5", 5), ("6", 6), ("7", 7), ("8", 8),
    ("9", 9), ("10", 10), ("J", 11), ("Q", 12), ("K", 13), ("A", 1)]

/-- `d[k]` on a string-keyed dict: `some` mapped value, `none` = `KeyError`. -/
def dictGet (d : List (String × Int)) (k : String) : Option Int :=
  (d.find? (fun p => p.1 == k)).map Prod.snd

/-- `ranks_order[rank]`: the dict has only string keys, so looking up an
integer rank (as the jokers carry) raises `KeyError`. -/
def rankGet (r : PyVal) : Option Int :=
  match r with
  | .str s => dictGet ranks_order s
  | .int _ => none

/-- A card: a `suit` string and a `rank` scalar. -/
structure Card : Type where
  suit : String
  rank : PyVal
deriving DecidableEq

/-- `Card.key()`: `(suits_order[suit], rank)` for a joker — the raw rank,
`ranks_order` is not consulted — and `(suits_order[suit], ranks_order[rank])`
otherwise.  The result is the lexicographically compared pair; `none` models
a raised `KeyError`. -/
def Card.key (c : Card) : Option (Lex (Int × PyVal)) :=
  if c.suit = "comodin" then
    (dictGet suits_order c.suit).map (fun p => toLex (p, c.rank))
  else
    (dictGet suits_order c.suit).bind (fun p =>
      (rankGet c.rank).map (fun v => toLex (p, PyVal.int v)))

/-- The key phase of Python's `sorted(array, key=key)` with a raising key:
CPython computes `key(x)` once for every element up front (the decoration
pass), so one failing element fails the whole call. -/
def pyMapKeys (key : α → Option κ) : List α → Option (List (κ × α))
  | [] => some []
  | a :: l =>
    (key a).bind (fun k => (pyMapKeys key l).map (fun rest => (k, a) :: rest))

/-- Model of `sorted(array, key=key)` with a fallible key: decorate every
element with its key (failing fast on a raise), sort the pairs stably by the
key component, strip the decoration. -/
def pySortedE (key : α → Option κ) (l : List α) : Option (List α) :=
  (pyMapKeys key l).map (fun pairs => (pySorted Prod.fst pairs).map Prod.snd)

/-- `merge` with a fallible key: each loop iteration computes the keys of
the two heads under comparison and propagates a raise. -/
def mergeE (key : α → Option κ) : List α → List α → Option (List α)
  | [], right => some right
  | left, [] => some left
  | a :: as, b :: bs =>
    (key a).bind (fun ka =>
      (key b).bind (fun kb =>
        if ka ≤ kb then (mergeE key as (b :: bs)).map (fun t => a :: t)
        else (mergeE key (a :: as) bs).map (fun t => b :: t)))

/-- `parallel_merge_sort` with a fallible key: an exception raised in either
half re-raises in the awaiting parent (`future.result()`), and one raised in
the merge fails the call; no partial result is returned. -/
def pmsE (key : α → Option κ) (array : List α) (max_depth : Int) :
    Option (List α) :=
  if array.length ≤ 1 ∨ max_depth ≤ 0 then pySortedE key array
  else
    (pmsE key (left_part array) (max_depth - 1)).bind (fun ls =>
      (pmsE key (right_part array) (max_depth - 1)).bind (fun rs =>
        mergeE key ls rs))
termination_by array.length
decreasing_by
  · simp only [left_part, List.length_take, not_or, not_le] at *
    omega
  · simp only [right_part, List.length_drop, not_or, not_le] at *
    omega

theorem pmsE_eq (key : α → Option κ) (array : List α) (d : Int) :
    pmsE key array d =
      if array.length ≤ 1 ∨ d ≤ 0 then pySortedE key array
      else
        (pmsE key (left_part array) (d - 1)).bind (fun ls =>
          (pmsE key (right_part array) (d - 1)).bind (fun rs =>
            mergeE key ls rs)) := by
  rw [pmsE]

omit [LinearOrder κ] in
theorem pyMapKeys_eq_none (key : α → Option κ) (c : α) :
    ∀ l : List α, c ∈ l → key c = none → pyMapKeys key l = none := by
  intro l
  induction l with
  | nil => intro h; exact absurd h (List.not_mem_nil c)
  | cons a l ih =>
    intro hc hk
    rcases List.mem_cons.mp hc with rfl | h3
    · rw [pyMapKeys, hk]
      rfl
    · rw [pyMapKeys, ih h3 hk]
      cases key a <;> rfl

theorem pySortedE_eq_none (key : α → Option κ) (c : α) (l : List α)
    (hc : c ∈ l) (hk : key c = none) : pySortedE key l = none := by
  rw [pySortedE, pyMapKeys_eq_none key c l hc hk]
  rfl

theorem pmsE_eq_none (key : α → Option κ) (c : α) (hk : key c = none) :
    ∀ (n : ℕ) (l : List α), l.length ≤ n → c ∈ l → ∀ d : Int,
      pmsE key l d = none := by
  intro n
  induction n with
  | zero =>
    intro l hl hc d
    have hnil : l = [] := List.length_eq_zero.mp (Nat.le_zero.mp hl)
    subst hnil
    exact absurd hc (List.not_mem_nil c)
  | succ n ih =>
    intro l hl hc d
    rw [pmsE_eq]
    by_cases hb : l.length ≤ 1 ∨ d ≤ 0
    · rw [if_pos hb]
      exact pySortedE_eq_none key c l hc hk
    · rw [if_neg hb]
      have h2 : 2 ≤ l.length := by
        rcases not_or.mp hb with ⟨h1, _⟩
        omega
      have hLlt : (left_part l).length < l.length := by
        simp only [left_part, List.length_take]
        omega
      have hRlt : (right_part l).length < l.length := by
        simp only [right_part, List.length_drop]
        omega
      have hsplit : c ∈ left_part l ++ right_part l := by
        rw [left_part, right_part, List.take_append_drop]
        exact hc
      rcases List.mem_append.mp hsplit with h3 | h3
      · rw [ih (left_part l) (by omega) h3 (d - 1)]
        rfl
      · cases hval : pmsE key (left_part l) (d - 1) with
        | none => rfl
        | some ls =>
          show (pmsE key (right_part l) (d - 1)).bind _ = none
          rw [ih (right_part l) (by omega) h3 (d - 1)]
          rfl

theorem card_key_none_of_bad_suit (c : Card)
    (h : dictGet suits_order c.suit = none) : Card.key c = none := by
  rw [Card.key]
  by_cases hc : c.suit = "comodin"
  · rw [if_pos hc, h]
    rfl
  · rw [if_neg hc, h]
    rfl

theorem card_key_none_of_bad_rank (c : Card) (h1 : c.suit ≠ "comodin")
    (h2 : rankGet c.rank = none) : Card.key c = none := by
  rw [Card.key, if_neg h1]
  cases dictGet suits_order c.suit <;> simp [h2]

theorem card_key_ordinary_inv (s : String) (r' : PyVal) (p : Int)
    (k : Lex (Int × PyVal)) (hns : s ≠ "comodin")
    (hsuit : dictGet suits_order s = some p)
    (hk : Card.key (Card.mk s r') = some k) :
    ∃ v : Int, rankGet r' = some v ∧ k = toLex (p, PyVal.int v) := by
  simp only [Card.key] at hk
  rw [if_neg hns, hsuit, Option.some_bind] at hk
  obtain ⟨v, hv, hkk⟩ := Option.map_eq_some'.mp hk
  exact ⟨v, hv, hkk.symm⟩

/-- Claim C7: a malformed key fails fast and fails the whole call: if the
input contains a card whose suit is not in `suits_order`, or a non-joker
card whose rank is not in `ranks_order`, key extraction raises for that
element and the entire `parallel_merge_sort` call fails (returns `none` in
the `Option` embedding), never a partially sorted or merged result. -/
theorem claim_C7 (l : List Card) (d : Int) (c : Card) (hc : c ∈ l)
    (hbad : dictGet suits_order c.suit = none ∨
      (c.suit ≠ "comodin" ∧ rankGet c.rank = none)) :
    pmsE Card.key l d = none := by
  have hk : Card.key c = none := by
    rcases hbad with h | ⟨h1, h2⟩
    · exact card_key_none_of_bad_suit c h
    · exact card_key_none_of_bad_rank c h1 h2
  exact pmsE_eq_none Card.key c hk l.length l le_rfl hc d

theorem claim_C7_witness :
    pmsE Card.key
      [Card.mk "corazones" (PyVal.str "A"), Card.mk "oros" (PyVal.str "2")] 2 =
      none :=
  claim_C7 [Card.mk "corazones" (PyVal.str "A"), Card.mk "oros" (PyVal.str "2")]
    2 (Card.mk "oros" (PyVal.str "2")) (by decide) (Or.inl (by decide))

/-- Claim C10: for every card whose suit is `"comodin"`, `Card.key` returns
the pair `(suits_order["comodin"], rank) = (4, rank)` with the raw rank and
without consulting `ranks_order`, so extraction succeeds for any rank value
(including ones absent from the rank table); the key of any well-keyed card
of the four ordinary suits is strictly below every joker key, and two joker
keys compare by their raw rank values. -/
theorem claim_C10 (r r' : PyVal) (s : String) (k : Lex (Int × PyVal))
    (hs : s = "corazones" ∨ s = "tréboles" ∨ s = "picas" ∨ s = "diamantes")
    (hk : Card.key (Card.mk s r') = some k) :
    Card.key (Card.mk "comodin" r) = some (toLex (4, r)) ∧
      dictGet suits_order "comodin" = some 4 ∧
      k < toLex (4, r) ∧
      ∀ n m : Int,
        toLex ((4 : Int), PyVal.int n) ≤ toLex ((4 : Int), PyVal.int m) ↔
          n ≤ m := by
  refine ⟨rfl, rfl, ?_, ?_⟩
  · rcases hs with rfl | rfl | rfl | rfl
    · obtain ⟨v, hv, rfl⟩ := card_key_ordinary_inv "corazones" r' 0 k (by decide) rfl hk
      rw [Prod.Lex.lt_iff]
      exact Or.inl (by norm_num)
    · obtain ⟨v, hv, rfl⟩ := card_key_ordinary_inv "tréboles" r' 1 k (by decide) rfl hk
      rw [Prod.Lex.lt_iff]
      exact Or.inl (by norm_num)
    · obtain ⟨v, hv, rfl⟩ := card_key_ordinary_inv "picas" r' 2 k (by decide) rfl hk
      rw [Prod.Lex.lt_iff]
      exact Or.inl (by norm_num)
    · obtain ⟨v, hv, rfl⟩ := card_key_ordinary_inv "diamantes" r' 3 k (by decide) rfl hk
      rw [Prod.Lex.lt_iff]
      exact Or.inl (by norm_num)
  · intro n m
    rw [Prod.Lex.le_iff]
    simp [PyVal.int_le_int_iff]

theorem claim_C10_witness :
    Card.key (Card.mk "comodin" (PyVal.str "X")) =
      some (toLex (4, PyVal.str "X")) ∧
      dictGet suits_order "comodin" = some 4 ∧
      toLex ((2 : Int), PyVal.int 7) < toLex (4, PyVal.str "X") ∧
      ∀ n m : Int,
        toLex ((4 : Int), PyVal.int n) ≤ toLex ((4 : Int), PyVal.int m) ↔
          n ≤ m :=
  claim_C10 (PyVal.str "X") (PyVal.str "7") "picas" (toLex (2, PyVal.int 7))
    (Or.inr (Or.inr (Or.inl rfl))) rfl

end SortingCards
